import Mathlib

/-!
Verification of the iSCSI attempt-slot allocator, the NIC/device correlator
and the set-command path-to-patch builder of the hpe-python-redfish-utility
repository.

The definitions below are shallow embeddings of the Python source:
  * `bootattemptcounter`, `deleteoptionhelper`, `addoptionhelper`,
    `pcidevicehelper` embed the correspondingly named methods of
    `src/extensions/BIOS_COMMANDS/IscsiConfigCommand.py`;
  * `setTokenToPayload` embeds the per-token body of `setfunction` in
    `src/extensions/COMMANDS/SetCommand.py` (lines 140-168).

Python strings are modelled as `List Char`, Python dictionaries as
association lists with first-match lookup, raised exceptions as `Except`
errors, and the in-place list mutations as explicit state passing.
-/

namespace HpeRedfish

/-- Double-quote character, written by code point to keep the file ASCII-clean. -/
def dquote : Char := Char.ofNat 34

/-- Single-quote character, written by code point. -/
def squote : Char := Char.ofNat 39

/-- Python `str.split(sep)` for a one-character separator: splits at every
occurrence, keeping empty pieces, and yields one piece more than the number
of separators. -/
def pySplit (sep : Char) : List Char → List (List Char)
  | [] => [[]]
  | c :: cs =>
    let r := pySplit sep cs
    if c = sep then [] :: r else (c :: r.headD []) :: r.tail

/-- Python `str.strip()`: drop whitespace from both ends. -/
def trimL (s : List Char) : List Char :=
  ((s.dropWhile Char.isWhitespace).reverse.dropWhile Char.isWhitespace).reverse

/-- Python `str.lower()` (ASCII case folding, as used by the command tokens). -/
def toLowerL (s : List Char) : List Char :=
  s.map Char.toLower

/-- Test for the two quote characters stripped by `val.strip("\x22\x27")`. -/
def isQuoteChar (c : Char) : Bool :=
  c = dquote || c = squote

/-- Python `val.strip(...)` with the two quote characters: drop any run of
quote characters from both ends. -/
def stripQuotes (s : List Char) : List Char :=
  ((s.dropWhile isQuoteChar).reverse.dropWhile isQuoteChar).reverse

/-- Python dictionary lookup, modelled on an association list with
first-match semantics (`k in d` followed by `d[k]`). -/
def lookupD (m : List (List Char × List Char)) (k : List Char) : Option (List Char) :=
  match m with
  | [] => none
  | (k2, v) :: rest => if k2 = k then some v else lookupD rest k

/-- Python list indexing `l[i]` for a possibly negative index: a negative
index `-k` selects element `len - k` when `k ≤ len`; out of range yields
`none` (an `IndexError` in the source). -/
def pyIndex (l : List α) (i : Int) : Option α :=
  if 0 ≤ i then l[i.toNat]?
  else if i.natAbs ≤ l.length then l[l.length - i.natAbs]? else none

/-! ## Data model -/

/-- One element of a `PciAssociation`'s `Associations` array: either a plain
identifier string or a mapping such as the one-key `PreBootNetwork` dict. -/
inductive AssocElem where
  | str (s : List Char)
  | dict (entries : List (List Char × List Char))
deriving DecidableEq

instance : Inhabited AssocElem := ⟨.str []⟩

/-- One BIOS PCI-association candidate of the correlator working set
(an entry of `Subinstances` flattened into `devicealloc`). -/
structure Assoc where
  correlatableID : List Char
  associations : List AssocElem
deriving DecidableEq

instance : Inhabited Assoc := ⟨⟨[], []⟩⟩

/-- One iSCSI boot-attempt record as fetched from the settings resource.
`restFields` stands for the remaining keys of the JSON object, which the
commands never touch; it makes frame conditions expressible. -/
structure BootRec where
  attemptInstance : Option Int
  attemptName : List Char
  nicSource : AssocElem
  restFields : Nat
deriving DecidableEq

instance : Inhabited BootRec := ⟨⟨none, [], .str [], 0⟩⟩

/-- Errors raised by the iSCSI command helpers, one constructor per distinct
`NicMissingOrConfigurationError` raise site. `allSlotsConfigured` is the
"All NICs have already been configured" raise in `bootattemptcounter`,
`slotNotFound` the "given attempt instance does not exist" raise,
`deleteTargetError` the raise replacing a Python `IndexError` in the delete
loop, `baseConfigMissing` the "Could not access Base Configurations" raise,
`invalidInput` the "Invalid input value" raises, `allNicsConfigured` the
"Failed to add NIC" raise of `addoptionhelper`, and `indexError` an
uncaught Python `IndexError`. -/
inductive IscsiErr where
  | allSlotsConfigured
  | slotNotFound
  | deleteTargetError
  | baseConfigMissing
  | invalidInput
  | allNicsConfigured
  | indexError
deriving DecidableEq

/-- Body and concurrency-token header of the `put_handler` call issued by
`deleteoptionhelper`. -/
structure PutReq where
  body : List BootRec
  ifMatch : List Char
deriving DecidableEq

instance exceptDecEq {ε α : Type} [DecidableEq ε] [DecidableEq α] :
    DecidableEq (Except ε α) := fun a b =>
  match a, b with
  | .ok x, .ok y =>
    if h : x = y then .isTrue (by rw [h]) else
      .isFalse (by intro hc; cases hc; exact h rfl)
  | .error x, .error y =>
    if h : x = y then .isTrue (by rw [h]) else
      .isFalse (by intro hc; cases hc; exact h rfl)
  | .ok _, .error _ => .isFalse (fun hc => Except.noConfusion hc)
  | .error _, .ok _ => .isFalse (fun hc => Except.noConfusion hc)

/-! ## Attempt-slot allocator (`bootattemptcounter`) -/

/-- Python truthiness of an optional integer field: `None` and `0` are
falsy, every other integer truthy. -/
def instTruthy : Option Int → Bool
  | none => false
  | some v => v != 0

/-- The `count` list of `bootattemptcounter`: the attempt-instance values of
the records whose instance field is truthy, in record order. -/
def usedInstances (bs : List BootRec) : List Int :=
  bs.filterMap fun r =>
    match r.attemptInstance with
    | some v => if v ≠ 0 then some v else none
    | none => none

/-- The gap-search loop of `bootattemptcounter`: `for i in range(1, size+1)`
with the `iterate` cursor into the sorted `count` list, returning
`iterate + 1` at the first position where `i` does not match the cursor
element. `none` models the implicit Python `None` when the range is
exhausted; `fuel` is the number of remaining loop iterations. -/
def bootWalk (count : List Int) : Nat → Nat → Nat → Option Nat
  | _, _, 0 => none
  | i, iterate, fuel + 1 =>
    if count[iterate]? = some (i : Int) then bootWalk count (i + 1) (iterate + 1) fuel
    else some (iterate + 1)

/-- Embedding of `IscsiConfigCommand.bootattemptcounter` (lines 305-336):
count the records, collect the truthy instance values, raise when the two
counts coincide, sort, and walk for the first gap (or return 1 when no
instance is set). -/
def bootattemptcounter (bs : List BootRec) : Except IscsiErr (Option Nat) :=
  let size := bs.length
  let count := usedInstances bs
  if size = count.length then .error .allSlotsConfigured
  else
    let sorted := count.insertionSort (· ≤ ·)
    if 0 < count.length then .ok (bootWalk sorted 1 0 size)
    else .ok (some 1)

/-- Spec-side definition (from the words of spec section 4.1): walking the
1-based numbering along the sorted used sequence, the first number `i` not
found at the current position is the result; when the sequence is exhausted
the result is one past it, which is `len(used) + 1`. This is the definition
the allocator is compared against for refinement. -/
def specFirstGap : Nat → List Int → Nat
  | i, [] => i
  | i, x :: xs => if (i : Int) = x then specFirstGap (i + 1) xs else i

/-- Sorted used sequence of a record list, shared by the statements below. -/
def sortedUsed (bs : List BootRec) : List Int :=
  (usedInstances bs).insertionSort (· ≤ ·)

/-- Record with a given attempt-instance value and defaults elsewhere,
used for concrete inputs. -/
def mkRec (i : Option Int) : BootRec :=
  ⟨i, [], .str [], 0⟩

/-! ## Device/NIC correlator (`pcidevicehelper`) -/

/-- Disabled test for one candidate of the working set (lines 775-786 of
`IscsiConfigCommand.py`): the head association element picks the branch; a
plain string is itself the BIOS key, a mapping contributes its
`PreBootNetwork` value; a candidate with an empty associations array makes
Python raise an `IndexError` at `item["Associations"][0]`. -/
def disabledCheck (bios : List (List Char × List Char)) (a : Assoc) :
    Except IscsiErr Bool :=
  match a.associations with
  | [] => .error .indexError
  | .dict entries :: _ =>
    .ok (match lookupD entries "PreBootNetwork".toList with
         | some k =>
           match lookupD bios k with
           | some v => decide (v = "Disabled".toList)
           | none => false
         | none => false)
  | .str s :: _ =>
    .ok (match lookupD bios s with
         | some v => decide (v = "Disabled".toList)
         | none => false)

/-- Primary association key of a candidate, as the claims describe it. -/
def primaryKey (a : Assoc) : Option (List Char) :=
  match a.associations with
  | [] => none
  | .str s :: _ => some s
  | .dict entries :: _ => lookupD entries "PreBootNetwork".toList

/-- Total disabled predicate used to state the results, agreeing with
`disabledCheck` on candidates with a non-empty associations array. -/
def isDisabled (bios : List (List Char × List Char)) (a : Assoc) : Bool :=
  match primaryKey a with
  | some k =>
    match lookupD bios k with
    | some v => decide (v = "Disabled".toList)
    | none => false
  | none => false

/-- The `removal` accumulation loop of `pcidevicehelper`. -/
def computeRemoval (bios : List (List Char × List Char)) :
    List Assoc → Except IscsiErr (List Assoc)
  | [] => .ok []
  | a :: rest =>
    match disabledCheck bios a with
    | .error e => .error e
    | .ok d =>
      match computeRemoval bios rest with
      | .error e => .error e
      | .ok r => .ok (if d then a :: r else r)

/-- Python `list.remove(x)`: delete the first occurrence of `x`. -/
def removeFirst (x : Assoc) : List Assoc → List Assoc
  | [] => []
  | y :: ys => if y = x then ys else y :: removeFirst x ys

/-- Embedding of the correlation core of `IscsiConfigCommand.pcidevicehelper`
(lines 775-790): collect the BIOS-disabled candidates into `removal`,
remove each of them in place from `devicealloc`, and return the pair of
the mutated working set and the removal list. The transport fetches of
the routine (device list, iSCSI resource, BIOS snapshot) are collaborator
calls and enter here as the already-fetched `bios` snapshot. -/
def pcidevicehelper (devicealloc : List Assoc)
    (bios : List (List Char × List Char)) :
    Except IscsiErr (List Assoc × List Assoc) :=
  match computeRemoval bios devicealloc with
  | .error e => .error e
  | .ok removal =>
    .ok (removal.foldl (fun acc x => removeFirst x acc) devicealloc, removal)

/-! ## Delete helper (`deleteoptionhelper`) -/

/-- The replacement loop of `deleteoptionhelper` (lines 368-385): every
record whose attempt instance equals the delete target is replaced by the
base-configuration default at the same index `count`; an out-of-range
index into the defaults is the caught `IndexError`, re-raised as the
delete-target error. The boolean is `foundlocation`. -/
def deleteLoop (n : Int) (patch : List BootRec) :
    Nat → List BootRec → Except IscsiErr (List BootRec × Bool)
  | _, [] => .ok ([], false)
  | c, r :: rs =>
    if r.attemptInstance = some n then
      match patch[c]? with
      | none => .error .deleteTargetError
      | some p =>
        match deleteLoop n patch (c + 1) rs with
        | .error e => .error e
        | .ok (rest, _) => .ok (p :: rest, true)
    else
      match deleteLoop n patch (c + 1) rs with
      | .error e => .error e
      | .ok (rest, f) => .ok (r :: rest, f)

/-- Embedding of `IscsiConfigCommand.deleteoptionhelper` (lines 338-398):
`patch` is the base-configuration default record list, `n` the parsed
`--delete` argument, `bootsources` the freshly fetched record sequence
and `etag` the concurrency token of that same fetch. An empty defaults
list fails first, a zero delete argument fails `validateinput`, and when
no record carries instance `n` the slot-not-found error is raised instead
of submitting; otherwise the rewritten sequence is put with the etag as
the `if-Match` header. -/
def deleteoptionhelper (n : Int) (patch bootsources : List BootRec)
    (etag : List Char) : Except IscsiErr PutReq :=
  if patch = [] then .error .baseConfigMissing
  else if n = 0 then .error .invalidInput
  else
    match deleteLoop n patch 0 bootsources with
    | .error e => .error e
    | .ok (body, found) =>
      if found then .ok ⟨body, etag⟩ else .error .slotNotFound

/-- Index-threaded form of the rewritten sequence, used by the proofs. -/
def replaceFrom (n : Int) (patch : List BootRec) :
    Nat → List BootRec → List BootRec
  | _, [] => []
  | c, r :: rs =>
    (if r.attemptInstance = some n then patch.getD c default else r) ::
      replaceFrom n patch (c + 1) rs

/-! ## Add helper (`addoptionhelper`) -/

/-- Python `str(n)` for the attempt name. -/
def natToChars (n : Nat) : List Char :=
  (Nat.repr n).toList

/-- Selected NIC source of the add operation (lines 260-270): the
candidate at Python index `addIdx - 1` of the correlated list contributes
`Associations[1]` when `Associations[0]` is a mapping and `Associations[0]`
itself otherwise; `none` stands for any of the `IndexError`s caught by the
surrounding `except` clause. -/
def extractSrc (final : List Assoc) (addIdx : Int) : Option AssocElem :=
  match pyIndex final (addIdx - 1) with
  | none => none
  | some a =>
    match a.associations[0]? with
    | none => none
    | some (AssocElem.dict _) => a.associations[1]?
    | some (AssocElem.str s) => some (AssocElem.str s)

/-- The record loop of `addoptionhelper` (lines 257-284): walk the fetched
records, and at the first one with a falsy attempt instance store the
selected NIC source, the allocated instance number and its decimal string
as the attempt name, then stop; a failed source extraction surfaces there
as the invalid-input error, and exhausting the loop without a free record
is the all-NICs-configured failure. -/
def addLoop (src : Option AssocElem) (num : Nat) :
    List BootRec → Except IscsiErr (List BootRec)
  | [] => .error .allNicsConfigured
  | r :: rs =>
    if instTruthy r.attemptInstance then
      match addLoop src num rs with
      | .error e => .error e
      | .ok body => .ok (r :: body)
    else
      match src with
      | none => .error .invalidInput
      | some s =>
        .ok ({ r with
                 nicSource := s,
                 attemptInstance := some (num : Int),
                 attemptName := natToChars num } :: rs)

/-- Embedding of the mutation core of `IscsiConfigCommand.addoptionhelper`:
`final` is the correlated candidate list (`devicealloc_final`), `addIdx`
the raw `--add` argument, `num` the allocated attempt instance; the
returned sequence is the patch body submitted on success. -/
def addoptionhelper (addIdx : Int) (final : List Assoc)
    (bootsources : List BootRec) (num : Nat) : Except IscsiErr (List BootRec) :=
  addLoop (extractSrc final addIdx) num bootsources

/-! ## Path-to-patch builder (`setfunction`, per-token body) -/

/-- Error raised by the token parser: the `InvalidCommandLineError` with
message "Invalid set parameter format" (the spec's
`InvalidSetParameterFormatError`). -/
inductive SetErr where
  | invalidFormat
deriving DecidableEq

/-- Value of the `val` variable after the boolean-coercion step: either a
Python bool or still a string. -/
inductive LitVal where
  | b (v : Bool)
  | s (v : List Char)
deriving DecidableEq

/-- Python `str(val)` for the intermediate value, as used by the
`"/" not in str(val)` test. -/
def strOfLit : LitVal → List Char
  | .b true => "True".toList
  | .b false => "False".toList
  | .s v => v

/-- Quote stripping and boolean coercion of the raw literal (lines 143-146
of `SetCommand.py`): strip quote characters, then any literal whose
lowering is "true" or "false" becomes the bool
`val.lower() in ("yes", "true", "t", "1")`. -/
def litStage1 (v : List Char) : LitVal :=
  if toLowerL (stripQuotes v) = "true".toList ∨ toLowerL (stripQuotes v) = "false".toList then
    .b (decide (toLowerL (stripQuotes v) ∈
      ["yes".toList, "true".toList, "t".toList, "1".toList]))
  else .s (stripQuotes v)

/-- JSON-like value built by the token parser: the leaf literal or a
single-key nested mapping. -/
inductive JVal where
  | s (v : List Char)
  | b (v : Bool)
  | list (vs : List (List Char))
  | obj (key : List Char) (v : JVal)
deriving DecidableEq

/-- Bracketed-list coercion (lines 160-163): a non-bool, non-empty literal
delimited by square brackets is split on commas into a list of strings. -/
def litStage2 : LitVal → JVal
  | .b b => .b b
  | .s v =>
    if v ≠ [] ∧ v.head? = some '[' ∧ v.getLast? = some ']' then
      .list (pySplit ',' ((v.drop 1).dropLast))
    else .s v

/-- Complete literal parsing pipeline applied to the right side of the
token. -/
def parseLit (v : List Char) : JVal :=
  litStage2 (litStage1 v)

/-- Payload construction (lines 165-168): a one-key mapping on the last
segment, wrapped by the remaining segments in reverse order; with no
segments the (lowercased) whole path is the single key. -/
def buildPayload (newargs : List (List Char)) (sel : List Char) (leaf : JVal) : JVal :=
  if newargs = [] then .obj sel leaf
  else
    (newargs.dropLast.reverse).foldl (fun p k => JVal.obj k p)
      (.obj (newargs.getLastD []) leaf)

/-- Token processing given the result of `arg.split("=")` and the raw
token (lines 140-168 of `SetCommand.py`): exactly two parts are required
(a Python 2-tuple unpacking), the path side is trimmed and lowercased, the
literal is quote-stripped and coerced, the path is split on slashes (from
the raw token when the value itself contains a slash), and the nested
payload is folded up. -/
def setTokenFromParts : List (List Char) → List Char → Except SetErr JVal
  | [s, v], arg =>
    .ok (buildPayload
      (if '/' ∈ toLowerL (trimL s) ∧ '/' ∉ strOfLit (litStage1 v) then
        pySplit '/' (toLowerL (trimL s))
      else if '/' ∈ toLowerL (trimL s) then
        pySplit '/' (arg.takeWhile (fun c => c ≠ '='))
      else [])
      (toLowerL (trimL s)) (litStage2 (litStage1 v)))
  | _, _ => .error .invalidFormat

/-- Embedding of the per-token body of `SetCommand.setfunction`. -/
def setTokenToPayload (arg : List Char) : Except SetErr JVal :=
  setTokenFromParts (pySplit '=' arg) arg

/-- Leaf of a nested single-key mapping. -/
def leafOf : JVal → JVal
  | .obj _ v => leafOf v
  | v => v

/-- Spec-side definition (from the words of spec section 4.3): the nested
mapping whose keys are the path segments applied outermost to innermost in
path order, with the given leaf below the last segment. The builder is
compared against this definition. -/
def nestedSpec : List (List Char) → JVal → JVal
  | [], leaf => leaf
  | k :: rest, leaf => .obj k (nestedSpec rest leaf)

/-! ## Lemmas about the allocator -/

theorem specFirstGap_cons_eq (i : Nat) (x : Int) (xs : List Int)
    (h : (i : Int) = x) : specFirstGap i (x :: xs) = specFirstGap (i + 1) xs := by
  rw [specFirstGap, if_pos h]

theorem specFirstGap_cons_ne (i : Nat) (x : Int) (xs : List Int)
    (h : (i : Int) ≠ x) : specFirstGap i (x :: xs) = i := by
  rw [specFirstGap, if_neg h]

theorem bootWalk_eq_specFirstGap (cnt : List Int) :
    ∀ fuel iterate, iterate ≤ cnt.length → cnt.length < iterate + fuel →
      bootWalk cnt (iterate + 1) iterate fuel =
        some (specFirstGap (iterate + 1) (cnt.drop iterate)) := by
  intro fuel
  induction fuel with
  | zero => intro iterate h1 h2; omega
  | succ f ih =>
    intro iterate h1 h2
    by_cases hlt : iterate < cnt.length
    · have hdrop : cnt.drop iterate = cnt[iterate] :: cnt.drop (iterate + 1) :=
        (List.getElem_cons_drop cnt iterate hlt).symm
      have hget : cnt[iterate]? = some cnt[iterate] := List.getElem?_eq_getElem hlt
      rw [hdrop]
      simp only [bootWalk, hget]
      by_cases he : cnt[iterate] = ((iterate + 1 : Nat) : Int)
      · rw [if_pos (by rw [he]),
          specFirstGap_cons_eq (iterate + 1) cnt[iterate]
            (cnt.drop (iterate + 1)) he.symm]
        exact ih (iterate + 1) (by omega) (by omega)
      · rw [if_neg (fun hc => he (Option.some.inj hc)),
          specFirstGap_cons_ne (iterate + 1) cnt[iterate]
            (cnt.drop (iterate + 1)) (fun h => he h.symm)]
    · have heq : iterate = cnt.length := le_antisymm h1 (not_lt.mp hlt)
      have hdrop : cnt.drop iterate = [] := List.drop_eq_nil_of_le (by omega)
      have hget : cnt[iterate]? = none := List.getElem?_eq_none (by omega)
      rw [hdrop]
      simp only [bootWalk, hget]
      rw [if_neg (by simp)]
      rfl

theorem bootattemptcounter_gap_general (bs : List BootRec)
    (h1 : usedInstances bs ≠ []) (h2 : (usedInstances bs).length ≠ bs.length) :
    bootattemptcounter bs = .ok (some (specFirstGap 1 (sortedUsed bs))) := by
  have hle : (usedInstances bs).length ≤ bs.length := List.length_filterMap_le _ _
  have hlt : (usedInstances bs).length < bs.length := lt_of_le_of_ne hle h2
  have hpos : 0 < (usedInstances bs).length := List.length_pos.mpr h1
  have hlen : (sortedUsed bs).length = (usedInstances bs).length :=
    List.length_insertionSort (· ≤ ·) (usedInstances bs)
  unfold bootattemptcounter
  rw [if_neg (by omega), if_pos hpos]
  have hw := bootWalk_eq_specFirstGap (sortedUsed bs) bs.length 0
    (by omega) (by omega)
  simpa [sortedUsed] using hw

theorem specFirstGap_range :
    ∀ (k i : Nat), specFirstGap i ((List.range' i k).map Int.ofNat) = i + k := by
  intro k
  induction k with
  | zero => intro i; simp [specFirstGap]
  | succ n ih =>
    intro i
    rw [List.range'_succ, List.map_cons]
    simp only [specFirstGap]
    rw [if_pos (by simp), ih (i + 1)]
    omega

theorem usedInstances_eq_nil_result (bs : List BootRec)
    (h1 : bs ≠ []) (h2 : usedInstances bs = []) :
    bootattemptcounter bs = .ok (some 1) := by
  have hlen : bs.length ≠ 0 := fun h => h1 (List.length_eq_zero.mp h)
  unfold bootattemptcounter
  rw [h2]
  simp [hlen]

/-! ## Claims C1, C2, C3 -/

/-- C1: whenever every record of the boot-attempt sequence has a truthy
attempt-instance value (the record count equals the count of set
instances), `bootattemptcounter` fails with the all-slots-configured error,
regardless of which specific values are set, before any gap search. -/
theorem bootattemptcounter_all_slots (bs : List BootRec)
    (h : bs.length = (usedInstances bs).length) :
    bootattemptcounter bs = .error .allSlotsConfigured := by
  unfold bootattemptcounter
  rw [if_pos h]

/-- Witness for C1 at a sparse instance assignment: instances 2 and 5 fill
both records, a gap at 1 exists, yet the allocator fails. -/
theorem bootattemptcounter_all_slots_witness :
    ([mkRec (some 2), mkRec (some 5)] : List BootRec).length =
      (usedInstances [mkRec (some 2), mkRec (some 5)]).length ∧
    bootattemptcounter [mkRec (some 2), mkRec (some 5)] =
      .error .allSlotsConfigured :=
  ⟨by decide, bootattemptcounter_all_slots _ (by decide)⟩

/-- C2: for a record sequence whose used instance list is non-empty and
shorter than the record count, the allocator returns the first gap of the
1-based contiguous numbering along the sorted used sequence (spec-side
`specFirstGap`, which is `len(used) + 1` when no gap exists in range);
in particular a contiguous set 1..k with k below the record count yields
k + 1, and the sequence with instances 1, None, 3, None yields 2. -/
theorem bootattemptcounter_first_gap :
    (∀ bs : List BootRec, usedInstances bs ≠ [] →
        (usedInstances bs).length ≠ bs.length →
        bootattemptcounter bs = .ok (some (specFirstGap 1 (sortedUsed bs))))
    ∧ (∀ (bs : List BootRec) (k : Nat),
        sortedUsed bs = (List.range' 1 k).map Int.ofNat →
        k < bs.length →
        bootattemptcounter bs = .ok (some (k + 1)))
    ∧ bootattemptcounter [mkRec (some 1), mkRec none, mkRec (some 3), mkRec none] =
        .ok (some 2) := by
  refine ⟨fun bs h1 h2 => bootattemptcounter_gap_general bs h1 h2, ?_, by decide⟩
  intro bs k hsort hk
  have hlen : (sortedUsed bs).length = (usedInstances bs).length :=
    List.length_insertionSort (· ≤ ·) (usedInstances bs)
  have hklen : (usedInstances bs).length = k := by
    rw [← hlen, hsort]; simp
  rcases Nat.eq_zero_or_pos k with hk0 | hkpos
  · subst hk0
    have hnil : usedInstances bs = [] := List.length_eq_zero.mp (by omega)
    have hbs : bs ≠ [] := by
      intro h; rw [h] at hk; simp at hk
    rw [usedInstances_eq_nil_result bs hbs hnil]
  · have h1 : usedInstances bs ≠ [] := by
      intro h; rw [h] at hklen; simp at hklen; omega
    have h2 : (usedInstances bs).length ≠ bs.length := by omega
    rw [bootattemptcounter_gap_general bs h1 h2, hsort, specFirstGap_range,
      Nat.add_comm 1 k]

/-- Witness for C2 at a concrete input with a non-contiguous used set. -/
theorem bootattemptcounter_first_gap_witness :
    usedInstances [mkRec (some 2), mkRec none] ≠ [] ∧
    (usedInstances [mkRec (some 2), mkRec none]).length ≠
      ([mkRec (some 2), mkRec none] : List BootRec).length ∧
    bootattemptcounter [mkRec (some 2), mkRec none] =
      .ok (some (specFirstGap 1 (sortedUsed [mkRec (some 2), mkRec none]))) :=
  ⟨by decide, by decide, bootattemptcounter_first_gap.1 _ (by decide) (by decide)⟩

/-- C3 counterexample: on the empty record sequence (zero instances set)
the allocator does not return 1; the count check 0 == 0 fires first and it
fails with the all-slots-configured error. -/
theorem bootattemptcounter_nil_cex :
    bootattemptcounter ([] : List BootRec) = .error .allSlotsConfigured ∧
    bootattemptcounter ([] : List BootRec) ≠ .ok (some 1) := by
  constructor
  · rfl
  · intro h
    exact Except.noConfusion ((rfl :
      bootattemptcounter ([] : List BootRec) = .error .allSlotsConfigured).symm.trans h)

/-- C3 amended: for every non-empty record sequence in which zero attempt
instances are set, the allocator returns 1. -/
theorem bootattemptcounter_no_used (bs : List BootRec)
    (h1 : bs ≠ []) (h2 : usedInstances bs = []) :
    bootattemptcounter bs = .ok (some 1) :=
  usedInstances_eq_nil_result bs h1 h2

/-- Witness for the amended C3 at a one-record free sequence. -/
theorem bootattemptcounter_no_used_witness :
    ([mkRec none] : List BootRec) ≠ [] ∧
    usedInstances [mkRec none] = [] ∧
    bootattemptcounter [mkRec none] = .ok (some 1) :=
  ⟨by decide, by decide, bootattemptcounter_no_used _ (by decide) (by decide)⟩

/-! ## Lemmas about the token parser -/

theorem pySplit_ne_nil (sep : Char) (s : List Char) : pySplit sep s ≠ [] := by
  cases s with
  | nil => simp [pySplit]
  | cons c cs =>
    simp only [pySplit]
    by_cases hc : c = sep
    · rw [if_pos hc]; simp
    · rw [if_neg hc]; simp

theorem pySplit_length (sep : Char) (s : List Char) :
    (pySplit sep s).length = s.count sep + 1 := by
  induction s with
  | nil => simp [pySplit]
  | cons c cs ih =>
    have hpos : 0 < (pySplit sep cs).length :=
      List.length_pos.mpr (pySplit_ne_nil sep cs)
    simp only [pySplit]
    by_cases hc : c = sep
    · subst hc
      rw [if_pos rfl, List.count_cons_self]
      simp only [List.length_cons]
      omega
    · rw [if_neg hc, List.count_cons_of_ne (Ne.symm hc)]
      simp only [List.length_cons, List.length_tail]
      omega

theorem pySplit_single (sep : Char) (s : List Char) (h : sep ∉ s) :
    pySplit sep s = [s] := by
  induction s with
  | nil => rfl
  | cons c cs ih =>
    have hc : c ≠ sep := fun hce => h (by rw [hce]; exact List.mem_cons_self _ _)
    have hcs : sep ∉ cs := fun hm => h (List.mem_cons_of_mem _ hm)
    simp only [pySplit, ih hcs]
    rw [if_neg hc]
    rfl

theorem pySplit_pair (sep : Char) (xs ys : List Char)
    (hx : sep ∉ xs) (hy : sep ∉ ys) :
    pySplit sep (xs ++ sep :: ys) = [xs, ys] := by
  induction xs with
  | nil =>
    simp [pySplit, pySplit_single sep ys hy]
  | cons c cs ih =>
    have hc : c ≠ sep := fun hce => hx (by rw [hce]; exact List.mem_cons_self _ _)
    have hcs : sep ∉ cs := fun hm => hx (List.mem_cons_of_mem _ hm)
    simp only [List.cons_append, pySplit]
    rw [if_neg hc, List.append_eq, ih hcs]
    rfl

theorem foldl_wrap_nested (leaf : JVal) :
    ∀ (pre : List (List Char)) (lastKey : List Char),
      (pre.reverse).foldl (fun p k => JVal.obj k p) (.obj lastKey leaf)
        = nestedSpec (pre ++ [lastKey]) leaf := by
  intro pre
  induction pre with
  | nil => intro k; rfl
  | cons k2 rest ih =>
    intro k
    simp only [List.reverse_cons, List.foldl_append, List.foldl_cons, List.foldl_nil,
      List.cons_append, nestedSpec]
    rw [ih k]
    rfl

theorem buildPayload_eq_nestedSpec (segs : List (List Char)) (sel : List Char)
    (leaf : JVal) (h : segs ≠ []) :
    buildPayload segs sel leaf = nestedSpec segs leaf := by
  unfold buildPayload
  rw [if_neg h]
  obtain ⟨pre, lastKey, rfl⟩ : ∃ pre k, segs = pre ++ [k] :=
    ⟨segs.dropLast, segs.getLast h, (List.dropLast_append_getLast h).symm⟩
  rw [List.dropLast_concat, List.getLastD_concat, foldl_wrap_nested]

theorem leafOf_foldl (xs : List (List Char)) :
    ∀ init : JVal, leafOf (xs.foldl (fun p k => JVal.obj k p) init) = leafOf init := by
  induction xs with
  | nil => intro init; rfl
  | cons x rest ih =>
    intro init
    simp only [List.foldl_cons]
    rw [ih (JVal.obj x init)]
    rfl

theorem leafOf_buildPayload (segs : List (List Char)) (sel : List Char) (leaf : JVal) :
    leafOf (buildPayload segs sel leaf) = leafOf leaf := by
  unfold buildPayload
  by_cases hn : segs = []
  · rw [if_pos hn]; rfl
  · rw [if_neg hn, leafOf_foldl]; rfl

theorem mem_of_mem_stripQuotes {c : Char} {s : List Char}
    (h : c ∈ stripQuotes s) : c ∈ s := by
  unfold stripQuotes at h
  rw [List.mem_reverse] at h
  have h2 := (List.dropWhile_sublist _).mem h
  rw [List.mem_reverse] at h2
  exact (List.dropWhile_sublist _).mem h2

theorem mem_trimL_of_mem {c : Char} {s : List Char}
    (hw : ¬ c.isWhitespace) (h : c ∈ s) : c ∈ trimL s := by
  have key : ∀ (l : List Char), c ∈ l → c ∈ l.dropWhile Char.isWhitespace := by
    intro l hl
    induction l with
    | nil => cases hl
    | cons a t ih =>
      by_cases ha : Char.isWhitespace a
      · rw [List.dropWhile_cons_of_pos (by simpa using ha)]
        rcases List.mem_cons.mp hl with rfl | ht
        · exact absurd ha hw
        · exact ih ht
      · rw [List.dropWhile_cons_of_neg (by simpa using ha)]
        exact hl
  unfold trimL
  rw [List.mem_reverse]
  apply key
  rw [List.mem_reverse]
  exact key s h

theorem mem_stripQuotes_of_mem {c : Char} {s : List Char}
    (hq : isQuoteChar c = false) (h : c ∈ s) : c ∈ stripQuotes s := by
  have key : ∀ (l : List Char), c ∈ l → c ∈ l.dropWhile isQuoteChar := by
    intro l hl
    induction l with
    | nil => cases hl
    | cons a t ih =>
      by_cases ha : isQuoteChar a = true
      · rw [List.dropWhile_cons_of_pos ha]
        rcases List.mem_cons.mp hl with rfl | ht
        · rw [hq] at ha; cases ha
        · exact ih ht
      · rw [List.dropWhile_cons_of_neg ha]
        exact hl
  unfold stripQuotes
  rw [List.mem_reverse]
  apply key
  rw [List.mem_reverse]
  exact key s h

theorem takeWhile_ne_append (sep : Char) (xs ys : List Char) (hx : sep ∉ xs) :
    (xs ++ sep :: ys).takeWhile (fun c => c ≠ sep) = xs := by
  induction xs with
  | nil => simp [List.takeWhile_cons]
  | cons c cs ih =>
    have hc : c ≠ sep := fun hce => hx (by rw [hce]; exact List.mem_cons_self _ _)
    have hcs : sep ∉ cs := fun hm => hx (List.mem_cons_of_mem _ hm)
    rw [List.cons_append, List.takeWhile_cons, if_pos (by simp [hc]), ih hcs]

/-! ## Claims C4, C5, C6 -/

/-- C4 counterexample: on the token with path "A/b" and value "x" the
builder lowercases the path, so the outermost key of the produced mapping
is "a" and not the first path segment "A". -/
theorem setTokenToPayload_case_cex :
    setTokenToPayload "A/b=x".toList =
      .ok (.obj "a".toList (.obj "b".toList (.s "x".toList))) ∧
    setTokenToPayload "A/b=x".toList ≠
      .ok (.obj "A".toList (.obj "b".toList (.s "x".toList))) := by
  constructor
  · decide
  · decide

/-- C4 amended: for every path containing a slash and no equals sign, and
every value containing no equals sign, the builder yields the single-key
nested mapping with the parsed literal as leaf; its keys, outermost to
innermost, are the slash segments of the trimmed lowercased path when the
value contains no slash, and the slash segments of the raw path as written
(so there the outermost key is the first path segment, as originally
claimed) when the value contains a slash; in particular the token with
path "a/b/c" and value "x" yields the mapping a / b / c / "x". -/
theorem setTokenToPayload_nesting :
    (∀ path value : List Char, '/' ∈ path → '=' ∉ path → '=' ∉ value →
        '/' ∉ value →
        setTokenToPayload (path ++ '=' :: value) =
          .ok (nestedSpec (pySplit '/' (toLowerL (trimL path))) (parseLit value)))
    ∧ (∀ path value : List Char, '/' ∈ path → '=' ∉ path → '=' ∉ value →
        '/' ∈ value →
        setTokenToPayload (path ++ '=' :: value) =
          .ok (nestedSpec (pySplit '/' path) (parseLit value)))
    ∧ setTokenToPayload "a/b/c=x".toList =
        .ok (.obj "a".toList (.obj "b".toList (.obj "c".toList (.s "x".toList)))) := by
  refine ⟨?_, ?_, by decide⟩
  · intro path value hs hpe hve hvs
    unfold setTokenToPayload
    rw [pySplit_pair '=' path value hpe hve]
    simp only [setTokenFromParts]
    have hsel : '/' ∈ toLowerL (trimL path) := by
      have h1 : '/' ∈ trimL path := mem_trimL_of_mem (by decide) hs
      exact List.mem_map.mpr ⟨'/', h1, by decide⟩
    have hnv : '/' ∉ strOfLit (litStage1 value) := by
      unfold litStage1
      by_cases hb : toLowerL (stripQuotes value) = "true".toList ∨
          toLowerL (stripQuotes value) = "false".toList
      · rw [if_pos hb]
        rcases hdec : decide (toLowerL (stripQuotes value) ∈
            ["yes".toList, "true".toList, "t".toList, "1".toList]) with _ | _
        · decide
        · decide
      · rw [if_neg hb]
        intro hmem
        exact hvs (mem_of_mem_stripQuotes hmem)
    rw [if_pos ⟨hsel, hnv⟩,
      buildPayload_eq_nestedSpec _ _ _ (pySplit_ne_nil _ _)]
    rfl
  · intro path value hs hpe hve hvs
    unfold setTokenToPayload
    rw [pySplit_pair '=' path value hpe hve]
    simp only [setTokenFromParts]
    have hsel : '/' ∈ toLowerL (trimL path) := by
      have h1 : '/' ∈ trimL path := mem_trimL_of_mem (by decide) hs
      exact List.mem_map.mpr ⟨'/', h1, by decide⟩
    have hstrip : '/' ∈ stripQuotes value :=
      mem_stripQuotes_of_mem (by decide) hvs
    have hlit : litStage1 value = .s (stripQuotes value) := by
      unfold litStage1
      rw [if_neg ?hnb]
      case hnb =>
        have hmem : '/' ∈ toLowerL (stripQuotes value) :=
          List.mem_map.mpr ⟨'/', hstrip, by decide⟩
        rintro (h1 | h1)
        · rw [h1] at hmem
          exact absurd hmem (by decide)
        · rw [h1] at hmem
          exact absurd hmem (by decide)
    have hnv : '/' ∈ strOfLit (litStage1 value) := by
      rw [hlit]
      exact hstrip
    rw [if_neg (fun hc => hc.2 hnv), if_pos hsel,
      takeWhile_ne_append '=' path value hpe,
      buildPayload_eq_nestedSpec _ _ _ (pySplit_ne_nil _ _)]
    rfl

/-- Witness for the amended C4 at the token with path "x/y" and value "v". -/
theorem setTokenToPayload_nesting_witness :
    ('/' ∈ "x/y".toList ∧ '=' ∉ "x/y".toList ∧ '=' ∉ "v".toList ∧
      '/' ∉ "v".toList ∧
      setTokenToPayload ("x/y".toList ++ '=' :: "v".toList) =
        .ok (nestedSpec (pySplit '/' (toLowerL (trimL "x/y".toList)))
              (parseLit "v".toList))) ∧
    ('/' ∈ "A/b".toList ∧ '=' ∉ "A/b".toList ∧ '=' ∉ "x/y".toList ∧
      '/' ∈ "x/y".toList ∧
      setTokenToPayload ("A/b".toList ++ '=' :: "x/y".toList) =
        .ok (nestedSpec (pySplit '/' "A/b".toList) (parseLit "x/y".toList))) :=
  ⟨⟨by decide, by decide, by decide, by decide,
    setTokenToPayload_nesting.1 _ _ (by decide) (by decide) (by decide) (by decide)⟩,
   ⟨by decide, by decide, by decide, by decide,
    setTokenToPayload_nesting.2.1 _ _ (by decide) (by decide) (by decide) (by decide)⟩⟩

/-- C5 counterexample: the token "=x" (empty path side) does not fail but
builds the mapping with the empty key, and the token "a=b=c" (two equals
signs, which the claim says splits at the first one) does fail. -/
theorem setTokenToPayload_format_cex :
    setTokenToPayload "=x".toList = .ok (.obj [] (.s "x".toList)) ∧
    setTokenToPayload "=x".toList ≠ .error .invalidFormat ∧
    setTokenToPayload "a=b=c".toList = .error .invalidFormat := by
  refine ⟨by decide, ?_, by decide⟩
  decide

/-- C5 amended: the token is unpacked from `arg.split("=")`, and the
builder fails with the invalid-set-parameter-format error exactly when the
number of equals signs in the token differs from one; an empty path side
does not fail. -/
theorem setTokenToPayload_error_iff :
    ∀ arg : List Char,
      setTokenToPayload arg = .error .invalidFormat ↔ arg.count '=' ≠ 1 := by
  intro arg
  have hlen := pySplit_length '=' arg
  constructor
  · intro herr hcnt
    rw [hcnt] at hlen
    obtain ⟨a, b, hab⟩ := List.length_eq_two.mp hlen
    rw [setTokenToPayload, hab] at herr
    exact Except.noConfusion herr
  · intro hcnt
    rw [setTokenToPayload]
    rcases hp : pySplit '=' arg with _ | ⟨a, _ | ⟨b, _ | ⟨c, tail3⟩⟩⟩
    · exact absurd hp (pySplit_ne_nil _ _)
    · rfl
    · exfalso
      rw [hp] at hlen
      simp at hlen
      omega
    · rfl

/-- Witness for the amended C5 at a token with no equals sign. -/
theorem setTokenToPayload_error_iff_witness :
    "ab".toList.count '=' ≠ 1 ∧
    setTokenToPayload "ab".toList = .error .invalidFormat :=
  ⟨by decide, (setTokenToPayload_error_iff _).mpr (by decide)⟩

/-- C6: every literal whose quote-stripped lowering is "true" or "false"
is coerced to the corresponding boolean ahead of every other literal
parsing, so the leaf of the produced payload is the boolean; the token
"flag=True" yields the mapping flag / true with a boolean leaf. -/
theorem setTokenToPayload_bool_coercion :
    (∀ path value : List Char, '=' ∉ path → '=' ∉ value →
        toLowerL (stripQuotes value) = "true".toList →
        Except.map leafOf (setTokenToPayload (path ++ '=' :: value)) =
          .ok (.b true))
    ∧ (∀ path value : List Char, '=' ∉ path → '=' ∉ value →
        toLowerL (stripQuotes value) = "false".toList →
        Except.map leafOf (setTokenToPayload (path ++ '=' :: value)) =
          .ok (.b false))
    ∧ setTokenToPayload "flag=True".toList =
        .ok (.obj "flag".toList (.b true)) := by
  refine ⟨?_, ?_, by decide⟩
  · intro path value hpe hve hlow
    unfold setTokenToPayload
    rw [pySplit_pair '=' path value hpe hve]
    simp only [setTokenFromParts]
    have h1 : litStage1 value = .b true := by
      unfold litStage1
      rw [if_pos (Or.inl hlow), hlow]
      rfl
    rw [h1]
    simp only [Except.map]
    rw [leafOf_buildPayload]
    rfl
  · intro path value hpe hve hlow
    unfold setTokenToPayload
    rw [pySplit_pair '=' path value hpe hve]
    simp only [setTokenFromParts]
    have h1 : litStage1 value = .b false := by
      unfold litStage1
      rw [if_pos (Or.inr hlow), hlow]
      rfl
    rw [h1]
    simp only [Except.map]
    rw [leafOf_buildPayload]
    rfl

/-- Witness for C6 at the token with path "p" and value "TRUE". -/
theorem setTokenToPayload_bool_coercion_witness :
    '=' ∉ "p".toList ∧ '=' ∉ "TRUE".toList ∧
    toLowerL (stripQuotes "TRUE".toList) = "true".toList ∧
    Except.map leafOf (setTokenToPayload ("p".toList ++ '=' :: "TRUE".toList)) =
      .ok (.b true) :=
  ⟨by decide, by decide, by decide,
    setTokenToPayload_bool_coercion.1 _ _ (by decide) (by decide) (by decide)⟩

/-! ## Lemmas about the correlator -/

theorem disabledCheck_eq (bios : List (List Char × List Char)) (a : Assoc)
    (h : a.associations ≠ []) :
    disabledCheck bios a = .ok (isDisabled bios a) := by
  rcases ha : a.associations with _ | ⟨e, rest⟩
  · exact absurd ha h
  · rcases e with s | entries
    · simp [disabledCheck, isDisabled, primaryKey, ha]
    · simp [disabledCheck, isDisabled, primaryKey, ha]

theorem computeRemoval_eq (bios : List (List Char × List Char)) :
    ∀ l : List Assoc, (∀ a ∈ l, a.associations ≠ []) →
      computeRemoval bios l = .ok (l.filter fun a => isDisabled bios a) := by
  intro l
  induction l with
  | nil => intro _; rfl
  | cons a t ih =>
    intro h
    have ha := h a (List.mem_cons_self a t)
    have ht : ∀ x ∈ t, x.associations ≠ [] :=
      fun x hx => h x (List.mem_cons_of_mem _ hx)
    unfold computeRemoval
    rw [disabledCheck_eq bios a ha, ih ht]
    dsimp only
    rw [List.filter_cons]

theorem foldl_removeFirst_cons (a : Assoc) :
    ∀ (xs acc : List Assoc), (∀ x ∈ xs, x ≠ a) →
      xs.foldl (fun acc x => removeFirst x acc) (a :: acc)
        = a :: xs.foldl (fun acc x => removeFirst x acc) acc := by
  intro xs
  induction xs with
  | nil => intro acc _; rfl
  | cons x t ih =>
    intro acc hne
    have hxa : x ≠ a := hne x (List.mem_cons_self x t)
    simp only [List.foldl_cons]
    have hstep : removeFirst x (a :: acc) = a :: removeFirst x acc := by
      show (if a = x then acc else a :: removeFirst x acc) = a :: removeFirst x acc
      rw [if_neg (fun hax => hxa hax.symm)]
    rw [hstep]
    exact ih (removeFirst x acc) (fun y hy => hne y (List.mem_cons_of_mem _ hy))

theorem foldl_removeFirst_filter (p : Assoc → Bool) :
    ∀ l : List Assoc,
      (l.filter p).foldl (fun acc x => removeFirst x acc) l
        = l.filter (fun x => !p x) := by
  intro l
  induction l with
  | nil => rfl
  | cons a t ih =>
    by_cases hpa : p a = true
    · rw [List.filter_cons, if_pos hpa]
      simp only [List.foldl_cons]
      have h1 : removeFirst a (a :: t) = t := by
        unfold removeFirst
        rw [if_pos rfl]
      rw [h1, ih, List.filter_cons]
      simp [hpa]
    · have hpa2 : p a = false := by
        cases hq : p a
        · rfl
        · exact absurd hq hpa
      rw [List.filter_cons, if_neg (by simp [hpa2])]
      have hne : ∀ x ∈ t.filter p, x ≠ a := by
        intro x hx hxa
        have hpx := (List.mem_filter.mp hx).2
        rw [hxa, hpa2] at hpx
        cases hpx
      rw [foldl_removeFirst_cons a (t.filter p) t hne, ih, List.filter_cons]
      simp [hpa2]

/-! ## Claim C7 -/

/-- C7: on every working set whose candidates all carry a non-empty
associations array, the correlator succeeds; a candidate whose primary
association key maps to "Disabled" in the BIOS snapshot lands in the
returned disabled list and leaves the (in-place mutated) available list;
a candidate whose key is absent stays available; the two outputs are
disjoint and together a permutation of the input working set. -/
theorem pcidevicehelper_partition (da : List Assoc)
    (bios : List (List Char × List Char))
    (h : ∀ a ∈ da, a.associations ≠ []) :
    ∃ avail dis,
      pcidevicehelper da bios = .ok (avail, dis) ∧
      (∀ a ∈ da, ∀ k, primaryKey a = some k →
        lookupD bios k = some "Disabled".toList → a ∈ dis ∧ a ∉ avail) ∧
      (∀ a ∈ da, ∀ k, primaryKey a = some k →
        lookupD bios k = none → a ∈ avail) ∧
      (∀ a, a ∈ avail → a ∉ dis) ∧
      List.Perm (avail ++ dis) da := by
  refine ⟨da.filter (fun x => !(isDisabled bios x)),
    da.filter (fun a => isDisabled bios a), ?_, ?_, ?_, ?_, ?_⟩
  · unfold pcidevicehelper
    rw [computeRemoval_eq bios da h]
    dsimp only
    rw [foldl_removeFirst_filter]
  · intro a ha k hpk hlk
    have hd : isDisabled bios a = true := by
      simp [isDisabled, hpk, hlk]
    constructor
    · exact List.mem_filter.mpr ⟨ha, hd⟩
    · intro hmem
      have := (List.mem_filter.mp hmem).2
      rw [hd] at this
      cases this
  · intro a ha k hpk hlk
    have hd : isDisabled bios a = false := by
      simp [isDisabled, hpk, hlk]
    exact List.mem_filter.mpr ⟨ha, by simp [hd]⟩
  · intro a hmem hmem2
    have h1 := (List.mem_filter.mp hmem).2
    have h2 := (List.mem_filter.mp hmem2).2
    rw [h2] at h1
    cases h1
  · simpa using List.filter_append_perm (fun x => !(isDisabled bios x)) da

/-! ## Lemmas about the delete helper -/

theorem deleteLoop_eq (n : Int) (patch : List BootRec) :
    ∀ (bs : List BootRec) (c : Nat), c + bs.length ≤ patch.length →
      deleteLoop n patch c bs =
        .ok (replaceFrom n patch c bs,
          bs.any fun r => decide (r.attemptInstance = some n)) := by
  intro bs
  induction bs with
  | nil => intro c h; rfl
  | cons r rs ih =>
    intro c h
    have hlen : c < patch.length := by
      simp only [List.length_cons] at h
      omega
    have hrec := ih (c + 1) (by simp only [List.length_cons] at h; omega)
    by_cases hr : r.attemptInstance = some n
    · simp only [deleteLoop, if_pos hr, List.getElem?_eq_getElem hlen, hrec]
      simp only [replaceFrom, if_pos hr, List.any_cons,
        List.getD_eq_getElem patch default hlen]
      simp [hr]
    · simp only [deleteLoop, if_neg hr, hrec]
      simp only [replaceFrom, if_neg hr, List.any_cons]
      simp [hr]

theorem replaceFrom_length (n : Int) (patch : List BootRec) :
    ∀ (bs : List BootRec) (c : Nat),
      (replaceFrom n patch c bs).length = bs.length := by
  intro bs
  induction bs with
  | nil => intro c; rfl
  | cons r rs ih =>
    intro c
    simp only [replaceFrom, List.length_cons, ih (c + 1)]

theorem replaceFrom_getD (n : Int) (patch : List BootRec) :
    ∀ (bs : List BootRec) (c i : Nat), i < bs.length →
      (replaceFrom n patch c bs).getD i default =
        (if (bs.getD i default).attemptInstance = some n
         then patch.getD (c + i) default else bs.getD i default) := by
  intro bs
  induction bs with
  | nil => intro c i h; simp at h
  | cons r rs ih =>
    intro c i h
    cases i with
    | zero => simp [replaceFrom, List.getD_cons_zero]
    | succ i2 =>
      simp only [replaceFrom, List.getD_cons_succ]
      rw [ih (c + 1) i2 (by simp only [List.length_cons] at h; omega)]
      have harith : c + 1 + i2 = c + (i2 + 1) := by omega
      rw [harith]

/-! ## Claim C8 -/

/-- C8: for a delete of attempt instance `n` (non-zero, with a non-empty
base-configuration defaults list covering the fetched record count), if
some fetched record carries instance `n` the submitted body replaces every
record with instance `n` by the default at the same index and leaves all
other records unchanged, and the body is put with the etag of the
preceding fetch as the `if-Match` header; if no record carries instance
`n` the helper fails with the slot-not-found error and nothing is
submitted. -/
theorem deleteoptionhelper_replace (n : Int) (patch bs : List BootRec)
    (etag : List Char) (hn : n ≠ 0) (hp : patch ≠ [])
    (hlen : bs.length ≤ patch.length) :
    ((∃ r ∈ bs, r.attemptInstance = some n) →
      ∃ body, deleteoptionhelper n patch bs etag = .ok ⟨body, etag⟩ ∧
        body.length = bs.length ∧
        ∀ i, i < bs.length →
          body.getD i default =
            (if (bs.getD i default).attemptInstance = some n
             then patch.getD i default else bs.getD i default))
    ∧ ((∀ r ∈ bs, r.attemptInstance ≠ some n) →
      deleteoptionhelper n patch bs etag = .error .slotNotFound) := by
  have hbase : deleteoptionhelper n patch bs etag =
      (if (bs.any fun r => decide (r.attemptInstance = some n)) then
        Except.ok ⟨replaceFrom n patch 0 bs, etag⟩
      else .error .slotNotFound) := by
    unfold deleteoptionhelper
    rw [if_neg hp, if_neg hn, deleteLoop_eq n patch bs 0 (by omega)]
  constructor
  · rintro ⟨r, hr, hrn⟩
    have hany : (bs.any fun r => decide (r.attemptInstance = some n)) = true :=
      List.any_eq_true.mpr ⟨r, hr, by simp [hrn]⟩
    rw [hbase, if_pos (by rw [hany])]
    refine ⟨replaceFrom n patch 0 bs, rfl, replaceFrom_length n patch bs 0, ?_⟩
    intro i hi
    have := replaceFrom_getD n patch bs 0 i hi
    simpa using this
  · intro hall
    have hany : (bs.any fun r => decide (r.attemptInstance = some n)) = false := by
      rw [← Bool.not_eq_true, List.any_eq_true]
      rintro ⟨x, hx, hxd⟩
      exact hall x hx (by simpa using hxd)
    rw [hbase, if_neg (by rw [hany]; exact fun hc => Bool.noConfusion hc)]

/-- Witness for C8 at a three-record sequence deleting instance 3. -/
theorem deleteoptionhelper_replace_witness :
    ∃ body,
      deleteoptionhelper 3 [mkRec (some 9), mkRec (some 9), mkRec (some 9)]
        [mkRec (some 1), mkRec (some 3), mkRec none] "W1".toList =
        .ok ⟨body, "W1".toList⟩ ∧
      body.length =
        ([mkRec (some 1), mkRec (some 3), mkRec none] : List BootRec).length ∧
      ∀ i, i < ([mkRec (some 1), mkRec (some 3), mkRec none] : List BootRec).length →
        body.getD i default =
          (if (([mkRec (some 1), mkRec (some 3), mkRec none] :
              List BootRec).getD i default).attemptInstance = some 3
           then ([mkRec (some 9), mkRec (some 9), mkRec (some 9)] :
              List BootRec).getD i default
           else ([mkRec (some 1), mkRec (some 3), mkRec none] :
              List BootRec).getD i default) :=
  (deleteoptionhelper_replace 3 _ _ _ (by decide) (by decide) (by decide)).1
    ⟨mkRec (some 3), by decide, by decide⟩

/-! ## Lemmas about the add helper -/

theorem addLoop_ok_of_free (s : AssocElem) (num : Nat) :
    ∀ bs : List BootRec, (∃ r ∈ bs, instTruthy r.attemptInstance = false) →
      ∃ body, addLoop (some s) num bs = .ok body := by
  intro bs
  induction bs with
  | nil => rintro ⟨r, hr, _⟩; cases hr
  | cons r rs ih =>
    rintro ⟨x, hx, hxf⟩
    by_cases hr : instTruthy r.attemptInstance
    · have hxrs : x ∈ rs := by
        rcases List.mem_cons.mp hx with rfl | h2
        · rw [hxf] at hr; cases hr
        · exact h2
      obtain ⟨body, hb⟩ := ih ⟨x, hxrs, hxf⟩
      refine ⟨r :: body, ?_⟩
      simp only [addLoop, if_pos hr, hb]
    · refine ⟨{ r with
          nicSource := s,
          attemptInstance := some (num : Int),
          attemptName := natToChars num } :: rs, ?_⟩
      simp only [addLoop, if_neg hr]

theorem addLoop_eq_set (s : AssocElem) (num : Nat) :
    ∀ bs : List BootRec, (∃ r ∈ bs, instTruthy r.attemptInstance = false) →
      addLoop (some s) num bs =
        .ok (bs.set (bs.findIdx fun r => !instTruthy r.attemptInstance)
          { bs.getD (bs.findIdx fun r => !instTruthy r.attemptInstance) default with
              nicSource := s,
              attemptInstance := some (num : Int),
              attemptName := natToChars num }) := by
  intro bs
  induction bs with
  | nil => rintro ⟨r, hr, _⟩; cases hr
  | cons r rs ih =>
    rintro ⟨x, hx, hxf⟩
    by_cases hr : instTruthy r.attemptInstance
    · have hxrs : x ∈ rs := by
        rcases List.mem_cons.mp hx with rfl | h2
        · rw [hxf] at hr; cases hr
        · exact h2
      have hfind : (r :: rs).findIdx (fun r => !instTruthy r.attemptInstance)
          = rs.findIdx (fun r => !instTruthy r.attemptInstance) + 1 := by
        rw [List.findIdx_cons]
        simp [hr]
      simp only [addLoop, if_pos hr, ih ⟨x, hxrs, hxf⟩]
      rw [hfind, List.set_cons_succ, List.getD_cons_succ]
    · have hfind : (r :: rs).findIdx (fun r => !instTruthy r.attemptInstance) = 0 := by
        rw [List.findIdx_cons]
        simp [hr]
      simp only [addLoop, if_neg hr]
      rw [hfind, List.set_cons_zero, List.getD_cons_zero]

theorem findIdx_first_false :
    ∀ bs : List BootRec, (∃ x ∈ bs, instTruthy x.attemptInstance = false) →
      (bs.findIdx fun r => !instTruthy r.attemptInstance) < bs.length ∧
      instTruthy ((bs.getD
        (bs.findIdx fun r => !instTruthy r.attemptInstance) default).attemptInstance)
        = false ∧
      ∀ i, i < (bs.findIdx fun r => !instTruthy r.attemptInstance) →
        instTruthy ((bs.getD i default).attemptInstance) = true := by
  intro bs
  induction bs with
  | nil => rintro ⟨r, hr, _⟩; cases hr
  | cons r rs ih =>
    rintro ⟨x, hx, hxf⟩
    by_cases hr : instTruthy r.attemptInstance
    · have hxrs : x ∈ rs := by
        rcases List.mem_cons.mp hx with rfl | h2
        · rw [hxf] at hr; cases hr
        · exact h2
      have hfind : (r :: rs).findIdx (fun r => !instTruthy r.attemptInstance)
          = rs.findIdx (fun r => !instTruthy r.attemptInstance) + 1 := by
        rw [List.findIdx_cons]
        simp [hr]
      obtain ⟨h1, h2, h3⟩ := ih ⟨x, hxrs, hxf⟩
      rw [hfind]
      refine ⟨by simp only [List.length_cons]; omega,
        by rw [List.getD_cons_succ]; exact h2, ?_⟩
      intro i hi
      cases i with
      | zero => rw [List.getD_cons_zero]; exact hr
      | succ i2 =>
        rw [List.getD_cons_succ]
        exact h3 i2 (by omega)
    · have hfind : (r :: rs).findIdx (fun r => !instTruthy r.attemptInstance) = 0 := by
        rw [List.findIdx_cons]
        simp [hr]
      rw [hfind]
      refine ⟨by simp, by rw [List.getD_cons_zero]; simpa using hr, ?_⟩
      intro i hi
      omega

theorem getD_set_ne (l : List BootRec) (j i : Nat) (a : BootRec) (h : j ≠ i) :
    (l.set j a).getD i default = l.getD i default := by
  rw [List.getD_eq_getElem?_getD, List.getElem?_set_ne h,
    ← List.getD_eq_getElem?_getD]

/-! ## Claims C9 and C10 -/

theorem extractSrc_zero_eq_last (final : List Assoc) (hf : final ≠ []) :
    extractSrc final 0 = extractSrc final (final.length : Int) := by
  have hlen : 0 < final.length := List.length_pos.mpr hf
  have h0 : pyIndex final ((0 : Int) - 1) = final[final.length - 1]? := by
    unfold pyIndex
    rw [if_neg (by omega), if_pos (by simp; omega)]
    norm_num
  have h1 : pyIndex final (((final.length : Nat) : Int) - 1) =
      final[final.length - 1]? := by
    unfold pyIndex
    rw [if_pos (by omega)]
    congr 1
    omega
  unfold extractSrc
  rw [h0, h1]

/-- C9: with a non-empty correlated candidate list, a free boot record and
a well-formed last candidate, selection index 0 is not rejected: the code
computes list index 0 - 1 = -1, Python indexing resolves it to the last
candidate, the add succeeds, and the result coincides with selecting the
last candidate by its valid 1-based index. -/
theorem addoptionhelper_zero_index (final : List Assoc) (bs : List BootRec)
    (num : Nat) (hf : final ≠ [])
    (hs : ∃ s, extractSrc final 0 = some s)
    (hfree : ∃ r ∈ bs, instTruthy r.attemptInstance = false) :
    (∃ body, addoptionhelper 0 final bs num = .ok body) ∧
    addoptionhelper 0 final bs num =
      addoptionhelper (final.length : Int) final bs num := by
  obtain ⟨s, hs0⟩ := hs
  constructor
  · obtain ⟨body, hb⟩ := addLoop_ok_of_free s num bs hfree
    refine ⟨body, ?_⟩
    rw [addoptionhelper, hs0, hb]
  · rw [addoptionhelper, addoptionhelper, extractSrc_zero_eq_last final hf]

/-- Witness for C9: index 0 on a two-candidate list configures the last
candidate, exactly as index 2 would. -/
theorem addoptionhelper_zero_index_witness :
    (∃ body, addoptionhelper 0
      [⟨"id1".toList, [.str "K1".toList]⟩, ⟨"id2".toList, [.str "K2".toList]⟩]
      [mkRec (some 1), mkRec none] 7 = .ok body) ∧
    addoptionhelper 0
      [⟨"id1".toList, [.str "K1".toList]⟩, ⟨"id2".toList, [.str "K2".toList]⟩]
      [mkRec (some 1), mkRec none] 7 =
    addoptionhelper (([⟨"id1".toList, [.str "K1".toList]⟩,
        ⟨"id2".toList, [.str "K2".toList]⟩] : List Assoc).length : Int)
      [⟨"id1".toList, [.str "K1".toList]⟩, ⟨"id2".toList, [.str "K2".toList]⟩]
      [mkRec (some 1), mkRec none] 7 :=
  addoptionhelper_zero_index _ _ 7 (by decide)
    ⟨.str "K2".toList, by decide⟩ ⟨mkRec none, by decide, by decide⟩

/-- C10: when the add succeeds, exactly one record of the fetched sequence
changes: the first record in fetched order with a falsy attempt instance
receives the selected NIC source, the allocated instance number and the
decimal string of that number as its attempt name; every record before it
has a truthy instance and every other record of the submitted body equals
the fetched one. -/
theorem addoptionhelper_single_update (addIdx : Int) (final : List Assoc)
    (bs : List BootRec) (num : Nat) (s : AssocElem)
    (hs : extractSrc final addIdx = some s)
    (hfree : ∃ r ∈ bs, instTruthy r.attemptInstance = false) :
    ∃ j, j = (bs.findIdx fun r => !instTruthy r.attemptInstance) ∧
      j < bs.length ∧
      instTruthy ((bs.getD j default).attemptInstance) = false ∧
      (∀ i, i < j → instTruthy ((bs.getD i default).attemptInstance) = true) ∧
      addoptionhelper addIdx final bs num =
        .ok (bs.set j { bs.getD j default with
            nicSource := s,
            attemptInstance := some (num : Int),
            attemptName := natToChars num }) ∧
      (bs.set j { bs.getD j default with
          nicSource := s,
          attemptInstance := some (num : Int),
          attemptName := natToChars num }).length = bs.length ∧
      ∀ i, i < bs.length → i ≠ j →
        (bs.set j { bs.getD j default with
            nicSource := s,
            attemptInstance := some (num : Int),
            attemptName := natToChars num }).getD i default = bs.getD i default := by
  obtain ⟨h1, h2, h3⟩ := findIdx_first_false bs hfree
  refine ⟨bs.findIdx fun r => !instTruthy r.attemptInstance,
    rfl, h1, h2, h3, ?_, List.length_set bs _ _, ?_⟩
  · rw [addoptionhelper, hs]
    exact addLoop_eq_set s num bs hfree
  · intro i hi hij
    exact getD_set_ne bs _ i _ (fun hc => hij hc.symm)

/-- Witness for C10: adding into records with instances 1, free, 3. -/
theorem addoptionhelper_single_update_witness :
    ∃ j, j = (([mkRec (some 1), mkRec none, mkRec (some 3)] :
        List BootRec).findIdx fun r => !instTruthy r.attemptInstance) ∧
      j < ([mkRec (some 1), mkRec none, mkRec (some 3)] : List BootRec).length ∧
      instTruthy ((([mkRec (some 1), mkRec none, mkRec (some 3)] :
        List BootRec).getD j default).attemptInstance) = false ∧
      (∀ i, i < j → instTruthy ((([mkRec (some 1), mkRec none, mkRec (some 3)] :
        List BootRec).getD i default).attemptInstance) = true) ∧
      addoptionhelper 1 [⟨"id1".toList, [.str "K1".toList]⟩]
        [mkRec (some 1), mkRec none, mkRec (some 3)] 2 =
        .ok (([mkRec (some 1), mkRec none, mkRec (some 3)] : List BootRec).set j
          { ([mkRec (some 1), mkRec none, mkRec (some 3)] :
              List BootRec).getD j default with
            nicSource := .str "K1".toList,
            attemptInstance := some (2 : Int),
            attemptName := natToChars 2 }) ∧
      (([mkRec (some 1), mkRec none, mkRec (some 3)] : List BootRec).set j
        { ([mkRec (some 1), mkRec none, mkRec (some 3)] :
            List BootRec).getD j default with
          nicSource := .str "K1".toList,
          attemptInstance := some (2 : Int),
          attemptName := natToChars 2 }).length =
        ([mkRec (some 1), mkRec none, mkRec (some 3)] : List BootRec).length ∧
      ∀ i, i < ([mkRec (some 1), mkRec none, mkRec (some 3)] :
          List BootRec).length → i ≠ j →
        (([mkRec (some 1), mkRec none, mkRec (some 3)] : List BootRec).set j
          { ([mkRec (some 1), mkRec none, mkRec (some 3)] :
              List BootRec).getD j default with
            nicSource := .str "K1".toList,
            attemptInstance := some (2 : Int),
            attemptName := natToChars 2 }).getD i default =
          ([mkRec (some 1), mkRec none, mkRec (some 3)] :
            List BootRec).getD i default :=
  addoptionhelper_single_update 1 _ _ 2 (.str "K1".toList) (by decide)
    ⟨mkRec none, by decide, by decide⟩

/-- Witness for C7: one disabled candidate, one with an absent key. -/
theorem pcidevicehelper_partition_witness :
    ∃ avail dis,
      pcidevicehelper
        [⟨"id1".toList, [.str "K1".toList]⟩, ⟨"id2".toList, [.str "K2".toList]⟩]
        [("K1".toList, "Disabled".toList)] = .ok (avail, dis) ∧
      (∀ a ∈ [(⟨"id1".toList, [.str "K1".toList]⟩ : Assoc),
          ⟨"id2".toList, [.str "K2".toList]⟩], ∀ k, primaryKey a = some k →
        lookupD [("K1".toList, "Disabled".toList)] k = some "Disabled".toList →
          a ∈ dis ∧ a ∉ avail) ∧
      (∀ a ∈ [(⟨"id1".toList, [.str "K1".toList]⟩ : Assoc),
          ⟨"id2".toList, [.str "K2".toList]⟩], ∀ k, primaryKey a = some k →
        lookupD [("K1".toList, "Disabled".toList)] k = none → a ∈ avail) ∧
      (∀ a, a ∈ avail → a ∉ dis) ∧
      List.Perm (avail ++ dis)
        [⟨"id1".toList, [.str "K1".toList]⟩, ⟨"id2".toList, [.str "K2".toList]⟩] :=
  pcidevicehelper_partition _ _ (by decide)

end HpeRedfish
